import Mathlib

/-!
Verification of the breadcrumbs data model (units, crumbs, tags).

Strings are modelled as `List Char`; the character-class tests
(`\s`, `[a-z0-9-]`, `str.lower`, `str.title`) follow the Python
semantics on the ASCII range, which covers the character classes the
specification speaks about (letters, digits, dashes, whitespace).
-/

/-- ASCII whitespace: the characters removed by `str.strip()` and matched
by the regex class `\s` (space, tab, newline, carriage return, vertical
tab, form feed). -/
def isSpaceChar (c : Char) : Bool :=
  c.toNat = 32 || c.toNat = 9 || c.toNat = 10 || c.toNat = 13 || c.toNat = 11 || c.toNat = 12

/-- The dash character, `-` (code 45). -/
def isDashChar (c : Char) : Bool := c.toNat = 45

/-- The character class `[a-z0-9-]` of the final validation regex
`^[a-z0-9\-]+$` in `TagBase.normalize_name`. -/
def isAllowedChar (c : Char) : Bool :=
  (97 ≤ c.toNat && c.toNat ≤ 122) || (48 ≤ c.toNat && c.toNat ≤ 57) || c.toNat = 45

/-- ASCII letters or digits (`[A-Za-z0-9]`). -/
def isAlnumChar (c : Char) : Bool :=
  (65 ≤ c.toNat && c.toNat ≤ 90) || (97 ≤ c.toNat && c.toNat ≤ 122)
    || (48 ≤ c.toNat && c.toNat ≤ 57)

/-- ASCII letters (`[A-Za-z]`). -/
def isAlphaChar (c : Char) : Bool :=
  (65 ≤ c.toNat && c.toNat ≤ 90) || (97 ≤ c.toNat && c.toNat ≤ 122)

/-- `str.lower()` on one character (ASCII). -/
def pyLowerChar (c : Char) : Char :=
  if 65 ≤ c.toNat && c.toNat ≤ 90 then Char.ofNat (c.toNat + 32) else c

/-- `str.upper()` on one character (ASCII). -/
def pyUpperChar (c : Char) : Char :=
  if 97 ≤ c.toNat && c.toNat ≤ 122 then Char.ofNat (c.toNat - 32) else c

/-- Remove the longest trailing run of characters satisfying `p`
(the right half of Python's `str.strip`). -/
def dropTrailing (p : Char → Bool) : List Char → List Char
  | [] => []
  | c :: rest =>
    let r := dropTrailing p rest
    if r.isEmpty && p c then [] else c :: r

/-- Python `str.strip()`: remove leading and trailing whitespace. -/
def pyStrip (l : List Char) : List Char :=
  dropTrailing isSpaceChar (l.dropWhile isSpaceChar)

/-- State machine for `re.sub(r"\s+", "-", ...)`: each maximal run of
whitespace becomes one dash; the flag says whether the previous input
character was whitespace (its dash already emitted). -/
def subWsDashAux : Bool → List Char → List Char
  | _, [] => []
  | prevWs, c :: rest =>
    if isSpaceChar c then
      if prevWs then subWsDashAux true rest else '-' :: subWsDashAux true rest
    else c :: subWsDashAux false rest

/-- `re.sub(r"\s+", "-", l)`. -/
def subWsDash (l : List Char) : List Char := subWsDashAux false l

/-- State machine for `re.sub(r"-{2,}", "-", ...)`: each maximal run of
dashes becomes one dash (runs of length one are untouched, which is the
same result); the flag says whether the previous input character was a
dash already kept. -/
def collapseDashesAux : Bool → List Char → List Char
  | _, [] => []
  | prevDash, c :: rest =>
    if isDashChar c then
      if prevDash then collapseDashesAux true rest else c :: collapseDashesAux true rest
    else c :: collapseDashesAux false rest

/-- `re.sub(r"-{2,}", "-", l)`. -/
def collapseDashes (l : List Char) : List Char := collapseDashesAux false l

/-- Python `str.strip("-")`: remove leading and trailing dashes. -/
def stripDashes (l : List Char) : List Char :=
  dropTrailing isDashChar (l.dropWhile isDashChar)

/-- The transformation chain shared by both versions of
`TagBase.normalize_name` (src/models.py lines 124-126 and
src/app/models.py lines 124-126):
`v = re.sub(r"\s+", "-", v.strip().lower())`,
`v = re.sub(r"-{2,}", "-", v)`, `v = v.strip("-")`. -/
def tagTransform (s : List Char) : List Char :=
  stripDashes (collapseDashes (subWsDash ((pyStrip s).map pyLowerChar)))

/-- `TagBase.normalize_name` of src/app/models.py (lines 119-131):
rejects empty or whitespace-only input, applies `tagTransform`, rejects
an empty result, and rejects a result not matching `^[a-z0-9\-]+$`
(the result contains no whitespace at that point, so the regex match is
exactly nonemptiness plus the per-character class); `none` stands for
`raise ValueError` (the spec's `InvalidTagName`). -/
def normalizeName (s : List Char) : Option (List Char) :=
  if s.isEmpty || (pyStrip s).isEmpty then none
  else
    let v := tagTransform s
    if v.isEmpty then none
    else if v.all isAllowedChar then some v
    else none

/-- `TagBase.normalize_name` of src/models.py (lines 121-129): same
transformation chain, but with no explicit emptiness checks — the only
rejection is the final regex `^[a-z0-9\-]+$`, which also fails on the
empty string because of the `+`. -/
def normalizeNameSrc (s : List Char) : Option (List Char) :=
  let v := tagTransform s
  if !v.isEmpty && v.all isAllowedChar then some v else none

/-- One step of Python `str.title()` (ASCII): an alphabetic character is
uppercased when the previous character was not cased, lowercased
otherwise; the flag records whether the previous character was cased. -/
def pyTitleAux : Bool → List Char → List Char
  | _, [] => []
  | prevCased, c :: rest =>
    if isAlphaChar c then
      (if prevCased then pyLowerChar c else pyUpperChar c) :: pyTitleAux true rest
    else c :: pyTitleAux false rest

/-- Python `str.title()` (ASCII). -/
def pyTitle (l : List Char) : List Char := pyTitleAux false l

/-- `name.replace("-", " ")` on one character. -/
def dashToSpace (c : Char) : Char := if isDashChar c then ' ' else c

/-- `Tag.display_name` (src/app/models.py lines 147-149):
`self.name.replace("-", " ").title()`. -/
def displayName (name : List Char) : List Char := pyTitle (name.map dashToSpace)

example : normalizeName (("Machine   Learning").data) = some (("machine-learning").data) := by
  decide

example : normalizeName (("  Machine   Learning--Notes!! ").data) = none := by decide

example : normalizeName (("-").data) = none := by decide

example : displayName (("machine-learning").data) = ("Machine Learning").data := by decide

/-! ## Entities

SQLModel models with `table=True` (`Unit`, `Crumb`, `Tag`) do not run
pydantic validation when instantiated directly: the repository records
this in src/tests/test_tag_model.py (lines 20-33, "Case preserved
as-is", "validators in SQLModel base classes have known issues with
table=True models"). Direct construction of a table model therefore
stores the caller's field values unchanged; only the `table=False`
shapes (`UnitCreate`, `TagCreate`, ...) validate. Timestamps are
modelled as opaque `Nat` values. -/

/-- The `Visibility` enum (src/app/models.py lines 10-12). -/
inductive Visibility where
  | draft
  | published
deriving DecidableEq, Repr

/-- The `Unit` table model (src/app/models.py lines 29-51): `name` and
`created_at` from `UnitBase`, plus the server-assigned `id`. Named
`UnitModel` because `Unit` is taken in Lean. -/
structure UnitModel where
  id : Option Nat
  name : List Char
  created_at : Nat
deriving DecidableEq, Repr

/-- Direct construction `Unit(name=..., created_at=...)`: a table model,
so the field values are stored unchanged — in particular the
`max_length=100` constraint on `name` is not checked here. -/
def UnitModel.construct (name : List Char) (createdAt : Nat) : UnitModel :=
  { id := none, name := name, created_at := createdAt }

/-- The `UnitCreate` shape (src/app/models.py lines 54-55): `table=False`,
so pydantic enforces the `max_length=100` constraint of `UnitBase.name`;
`none` stands for a pydantic `ValidationError` (the spec's
`ConstraintViolation`). -/
def UnitCreate.construct (name : List Char) (createdAt : Nat) :
    Option (List Char × Nat) :=
  if name.length ≤ 100 then some (name, createdAt) else none

/-- The `Crumb` table model (src/app/models.py lines 63-97): fields of
`CrumbBase` plus `id` and the optional `unit_id` foreign key. -/
structure Crumb where
  id : Option Nat
  body_md : List Char
  created_at : Nat
  updated_at : Option Nat
  visibility : Visibility
  unit_id : Option Nat
deriving DecidableEq, Repr

/-- Direct construction of a `Crumb`: `visibility` defaults to
`Visibility.draft` when the caller omits it (`none`), `updated_at`
starts unset (src/app/models.py lines 65-71; field defaults do apply
to table models, unlike validators — see test_crumb_create_minimal). -/
def Crumb.construct (body : List Char) (createdAt : Nat)
    (vis : Option Visibility) (unitId : Option Nat) : Crumb :=
  { id := none, body_md := body, created_at := createdAt,
    updated_at := none, visibility := vis.getD Visibility.draft,
    unit_id := unitId }

/-- The `Tag` table model (src/app/models.py lines 134-149): the stored
`name` plus the server-assigned `id`. -/
structure Tag where
  id : Option Nat
  name : List Char
deriving DecidableEq, Repr

/-- Direct construction `Tag(name=...)`: a table model, so the
`normalize_name` validator does not run and the raw name is stored
unchanged (src/tests/test_tag_model.py lines 20-33). -/
def Tag.construct (name : List Char) : Tag :=
  { id := none, name := name }

/-- The `TagCreate` shape (src/app/models.py lines 152-153):
`table=False`, so the `normalize_name` validator runs on the supplied
name. -/
def TagCreate.construct (name : List Char) : Option (List Char) :=
  normalizeName name

/-! ## The tag table and its case-insensitive unique index -/

/-- One row of the `tag` table. -/
structure TagRow where
  id : Nat
  name : List Char
deriving DecidableEq, Repr

/-- The storage-layer errors the claims speak about. -/
inductive DBError where
  | uniquenessViolation
deriving DecidableEq, Repr

/-- `lower(name)`, the key of the unique index `uq_tag_name_lower_idx`
(src/app/models.py line 136). -/
def ciKey (n : List Char) : List Char := n.map pyLowerChar

/-- The `tag` table. -/
structure TagStore where
  rows : List TagRow
deriving DecidableEq, Repr

/-- Insert a tag row: the unique index on `lower(name)` makes the
transaction fail with an integrity error when some existing row has a
case-insensitively equal name; otherwise the row is appended with a
fresh server-assigned id. -/
def insertTag (st : TagStore) (n : List Char) : Except DBError TagStore :=
  if st.rows.any (fun r => ciKey r.name == ciKey n) then
    Except.error DBError.uniquenessViolation
  else
    Except.ok ⟨st.rows ++ [⟨st.rows.length, n⟩]⟩

/-- Delete the tag row with the given id. -/
def deleteTagRow (st : TagStore) (tid : Nat) : TagStore :=
  ⟨st.rows.filter (fun r => r.id != tid)⟩

/-- The tag-table states reachable from the empty table through inserts
and deletes. -/
inductive TagStoreReachable : TagStore → Prop where
  | empty : TagStoreReachable ⟨[]⟩
  | insert (st st' : TagStore) (n : List Char) : TagStoreReachable st →
      insertTag st n = Except.ok st' → TagStoreReachable st'
  | delete (st : TagStore) (tid : Nat) : TagStoreReachable st →
      TagStoreReachable (deleteTagRow st tid)

/-! ## The three tables and parent deletion

`CrumbTag` (src/app/models.py lines 15-25) tries to declare
`ondelete="CASCADE"` on both foreign keys, but passes it through
`sa_column_kwargs`, i.e. to `sqlalchemy.Column` — and `ondelete` is an
argument of `ForeignKey`, not of `Column`. No `ON DELETE CASCADE`
therefore reaches the DDL of the join table. The relationships also set
`passive_deletes: True` ("Defer delete handling to DB"), so the ORM does
not remove association rows itself, and the test engine
(src/tests/conftest.py: in-memory SQLite with no foreign-key pragma)
does not enforce the foreign keys: deleting a parent row leaves the
matching association rows in place, orphaned. -/

/-- One row of the `crumb` table. -/
structure CrumbRow where
  id : Nat
  crumb : Crumb
deriving DecidableEq, Repr

/-- The persisted state: the `crumb` and `tag` tables and the
`crumbtag` join table of `(crumb_id, tag_id)` pairs. -/
structure JoinStore where
  crumbs : List CrumbRow
  tags : List TagRow
  links : List (Nat × Nat)
deriving DecidableEq, Repr

/-- `DELETE FROM tag WHERE id = tid` as the schema actually stands: the
tag row goes; with no `ON DELETE CASCADE` on `crumbtag.tag_id` and
delete handling deferred to the database, the association rows stay. -/
def deleteTagNoCascade (s : JoinStore) (tid : Nat) : JoinStore :=
  { crumbs := s.crumbs,
    tags := s.tags.filter (fun r => r.id != tid),
    links := s.links }

/-- `DELETE FROM crumb WHERE id = cid` as the schema actually stands:
the crumb row goes; with no `ON DELETE CASCADE` on `crumbtag.crumb_id`
and delete handling deferred to the database, the association rows
stay. -/
def deleteCrumbNoCascade (s : JoinStore) (cid : Nat) : JoinStore :=
  { crumbs := s.crumbs.filter (fun r => r.id != cid),
    tags := s.tags,
    links := s.links }

/-- A one-crumb, one-tag store with one association row: the smallest
scenario exercising the claimed cascade. -/
def exampleJoinStore : JoinStore :=
  { crumbs := [⟨1, Crumb.construct (("note").data) 0 none none⟩],
    tags := [⟨1, ("python").data⟩],
    links := [(1, 1)] }

/-! ## Shape predicates on character lists -/

/-- The head of the list satisfies `p` (false for the empty list). -/
def headSat (p : Char → Bool) : List Char → Bool
  | [] => false
  | c :: _ => p c

/-- The last element of the list satisfies `p` (false for the empty
list). -/
def lastSat (p : Char → Bool) : List Char → Bool
  | [] => false
  | [c] => p c
  | _ :: c :: rest => lastSat p (c :: rest)

/-- No two consecutive dashes anywhere in the list. -/
def noDD : List Char → Bool
  | [] => true
  | c :: rest => (!(isDashChar c && headSat isDashChar rest)) && noDD rest

/-- The normal form the spec requires of stored tag names: nonempty,
only `[a-z0-9-]`, no double dash, no leading dash, no trailing dash. -/
def canonicalTagName (l : List Char) : Bool :=
  !l.isEmpty && l.all isAllowedChar && noDD l
    && !headSat isDashChar l && !lastSat isDashChar l

/-! ## Character-level lemmas -/

theorem toNat_ofNat_small (n : Nat) (h : n < 55296) : (Char.ofNat n).toNat = n := by
  unfold Char.ofNat
  rw [dif_pos (Or.inl h)]
  simp [Char.ofNatAux, Char.toNat, UInt32.toNat]

theorem allowed_not_space {c : Char} (h : isAllowedChar c = true) :
    isSpaceChar c = false := by
  simp only [isAllowedChar, Bool.or_eq_true, Bool.and_eq_true, decide_eq_true_eq] at h
  simp only [isSpaceChar, Bool.or_eq_false_iff, decide_eq_false_iff_not]
  omega

theorem allowed_pyLowerChar {c : Char} (h : isAllowedChar c = true) :
    pyLowerChar c = c := by
  simp only [isAllowedChar, Bool.or_eq_true, Bool.and_eq_true, decide_eq_true_eq] at h
  unfold pyLowerChar
  rw [if_neg]
  simp only [Bool.and_eq_true, decide_eq_true_eq, not_and]
  omega

theorem space_pyLowerChar {c : Char} (h : isSpaceChar c = true) :
    pyLowerChar c = c := by
  simp only [isSpaceChar, Bool.or_eq_true, decide_eq_true_eq] at h
  unfold pyLowerChar
  rw [if_neg]
  simp only [Bool.and_eq_true, decide_eq_true_eq, not_and]
  omega

theorem alnum_not_space {c : Char} (h : isAlnumChar c = true) :
    isSpaceChar c = false := by
  simp only [isAlnumChar, Bool.or_eq_true, Bool.and_eq_true, decide_eq_true_eq] at h
  simp only [isSpaceChar, Bool.or_eq_false_iff, decide_eq_false_iff_not]
  omega

/-- Lowercasing an ASCII letter or digit yields a character of the
allowed class that is neither a dash nor whitespace. -/
theorem alnum_pyLowerChar {c : Char} (h : isAlnumChar c = true) :
    isAllowedChar (pyLowerChar c) = true ∧ isDashChar (pyLowerChar c) = false
      ∧ isSpaceChar (pyLowerChar c) = false := by
  simp only [isAlnumChar, Bool.or_eq_true, Bool.and_eq_true, decide_eq_true_eq] at h
  unfold pyLowerChar
  by_cases hu : 65 ≤ c.toNat ∧ c.toNat ≤ 90
  · rw [if_pos (by simp only [Bool.and_eq_true, decide_eq_true_eq]; exact hu)]
    have ht : (Char.ofNat (c.toNat + 32)).toNat = c.toNat + 32 :=
      toNat_ofNat_small _ (by omega)
    simp only [isAllowedChar, isDashChar, isSpaceChar, ht, Bool.or_eq_true,
      Bool.and_eq_true, decide_eq_true_eq, Bool.or_eq_false_iff,
      decide_eq_false_iff_not]
    omega
  · rw [if_neg (by simp only [Bool.and_eq_true, decide_eq_true_eq]; exact hu)]
    simp only [isAllowedChar, isDashChar, isSpaceChar, Bool.or_eq_true,
      Bool.and_eq_true, decide_eq_true_eq, Bool.or_eq_false_iff,
      decide_eq_false_iff_not]
    omega

/-- Lowercasing a letter, digit, dash, or whitespace character yields
whitespace or an allowed character. -/
theorem clean_pyLowerChar {c : Char}
    (h : (isAlnumChar c || isDashChar c || isSpaceChar c) = true) :
    (isSpaceChar (pyLowerChar c) || isAllowedChar (pyLowerChar c)) = true := by
  rcases Bool.or_eq_true _ _ |>.mp h with h' | hs
  · rcases Bool.or_eq_true _ _ |>.mp h' with ha | hd
    · simp [(alnum_pyLowerChar ha).1]
    · have : isAllowedChar c = true := by
        simp only [isDashChar, decide_eq_true_eq] at hd
        simp [isAllowedChar, hd]
      simp [allowed_pyLowerChar this, this]
  · simp [space_pyLowerChar hs, hs]

/-! ## dropWhile and dropTrailing lemmas -/

theorem mem_dropWhile_of_neg {p : Char → Bool} {x : Char} :
    ∀ {l : List Char}, x ∈ l → p x = false → x ∈ l.dropWhile p
  | [], hx, _ => absurd hx (List.not_mem_nil x)
  | c :: rest, hx, hpx => by
    by_cases hc : p c = true
    · rw [List.dropWhile_cons_of_pos hc]
      rcases List.mem_cons.mp hx with rfl | hx'
      · rw [hpx] at hc; exact absurd hc (by simp)
      · exact mem_dropWhile_of_neg hx' hpx
    · rw [List.dropWhile_cons_of_neg hc]
      exact hx

theorem all_dropWhile {p q : Char → Bool} :
    ∀ {l : List Char}, l.all q = true → (l.dropWhile p).all q = true
  | [], _ => rfl
  | c :: rest, h => by
    rw [List.all_cons, Bool.and_eq_true] at h
    by_cases hc : p c = true
    · rw [List.dropWhile_cons_of_pos hc]
      exact all_dropWhile h.2
    · rw [List.dropWhile_cons_of_neg hc]
      rw [List.all_cons, Bool.and_eq_true]
      exact ⟨h.1, h.2⟩

theorem headSat_dropWhile (p : Char → Bool) :
    ∀ l : List Char, headSat p (l.dropWhile p) = false
  | [] => rfl
  | c :: rest => by
    by_cases hc : p c = true
    · rw [List.dropWhile_cons_of_pos hc]
      exact headSat_dropWhile p rest
    · rw [List.dropWhile_cons_of_neg hc]
      simpa [headSat] using hc

theorem all_dropWhile_iff (p : Char → Bool) :
    ∀ l : List Char, (l.dropWhile p).all p = l.all p
  | [] => rfl
  | c :: rest => by
    by_cases hc : p c = true
    · rw [List.dropWhile_cons_of_pos hc, List.all_cons, hc, Bool.true_and]
      exact all_dropWhile_iff p rest
    · rw [List.dropWhile_cons_of_neg hc]

theorem dropWhile_fix_of_head {p : Char → Bool} :
    ∀ {l : List Char}, headSat p l = false → l.dropWhile p = l
  | [], _ => rfl
  | c :: rest, h => List.dropWhile_cons_of_neg (by simpa [headSat] using h)

theorem dropTrailing_eq_nil_iff (p : Char → Bool) :
    ∀ l : List Char, dropTrailing p l = [] ↔ l.all p = true
  | [] => by simp [dropTrailing]
  | c :: rest => by
    by_cases hr : dropTrailing p rest = []
    · have hall := (dropTrailing_eq_nil_iff p rest).mp hr
      by_cases hc : p c = true
      · simp [dropTrailing, hr, hc, hall]
      · simp [dropTrailing, hr, hc]
    · have hall : ¬ rest.all p = true := fun h =>
        hr ((dropTrailing_eq_nil_iff p rest).mpr h)
      simp [dropTrailing, List.isEmpty_iff, hr, hall]

theorem mem_dropTrailing_of_neg {p : Char → Bool} {x : Char} :
    ∀ {l : List Char}, x ∈ l → p x = false → x ∈ dropTrailing p l
  | [], hx, _ => absurd hx (List.not_mem_nil x)
  | c :: rest, hx, hpx => by
    rw [dropTrailing]
    rcases List.mem_cons.mp hx with rfl | hx'
    · rw [hpx, Bool.and_false]
      simp
    · have hmem : x ∈ dropTrailing p rest := mem_dropTrailing_of_neg hx' hpx
      have hne : dropTrailing p rest ≠ [] := fun h0 => by
        rw [h0] at hmem; exact List.not_mem_nil x hmem
      have : ((dropTrailing p rest).isEmpty && p c) = false := by
        simp [List.isEmpty_iff, hne]
      rw [this]
      exact List.mem_cons_of_mem c hmem

theorem all_dropTrailing {p q : Char → Bool} :
    ∀ {l : List Char}, l.all q = true → (dropTrailing p l).all q = true
  | [], _ => rfl
  | c :: rest, h => by
    rw [List.all_cons, Bool.and_eq_true] at h
    rw [dropTrailing]
    by_cases hb : ((dropTrailing p rest).isEmpty && p c) = true
    · rw [if_pos hb]; rfl
    · rw [if_neg (by simp [hb])]
      rw [List.all_cons, Bool.and_eq_true]
      exact ⟨h.1, all_dropTrailing h.2⟩

theorem headSat_dropTrailing (p q : Char → Bool) :
    ∀ l : List Char, dropTrailing p l = [] ∨ headSat q (dropTrailing p l) = headSat q l
  | [] => Or.inl rfl
  | c :: rest => by
    rw [dropTrailing]
    by_cases hb : ((dropTrailing p rest).isEmpty && p c) = true
    · rw [if_pos hb]; exact Or.inl rfl
    · rw [if_neg (by simp [hb])]
      exact Or.inr rfl

theorem lastSat_cons {p : Char → Bool} (c : Char) {l : List Char} (h : l ≠ []) :
    lastSat p (c :: l) = lastSat p l := by
  match l with
  | [] => exact absurd rfl h
  | d :: rest => rfl

theorem lastSat_dropTrailing (p : Char → Bool) :
    ∀ l : List Char, lastSat p (dropTrailing p l) = false
  | [] => rfl
  | c :: rest => by
    by_cases hb : ((dropTrailing p rest).isEmpty && p c) = true
    · have h1 : dropTrailing p (c :: rest) = [] := by simp [dropTrailing, hb]
      rw [h1]
      rfl
    · by_cases hr : dropTrailing p rest = []
      · have hc : p c = false := by
          rw [hr] at hb
          simpa using hb
        have h1 : dropTrailing p (c :: rest) = [c] := by
          simp [dropTrailing, hb, hr, hc]
        rw [h1]
        simpa [lastSat] using hc
      · have h1 : dropTrailing p (c :: rest) = c :: dropTrailing p rest := by
          simp [dropTrailing, hb]
        rw [h1, lastSat_cons c hr]
        exact lastSat_dropTrailing p rest

theorem lastSat_false_of_all {p : Char → Bool} :
    ∀ {l : List Char}, l.all (fun c => !p c) = true → lastSat p l = false
  | [], _ => rfl
  | [c], h => by
    rw [List.all_cons] at h
    simpa [lastSat] using (Bool.and_eq_true _ _ |>.mp h).1
  | c :: d :: rest, h => by
    rw [List.all_cons, Bool.and_eq_true] at h
    rw [lastSat_cons c (by simp)]
    exact lastSat_false_of_all h.2

theorem dropTrailing_fix {p : Char → Bool} :
    ∀ {l : List Char}, lastSat p l = false → dropTrailing p l = l
  | [], _ => rfl
  | [c], h => by
    have hc : p c = false := by simpa [lastSat] using h
    simp [dropTrailing, hc]
  | c :: d :: rest, h => by
    rw [lastSat_cons c (by simp)] at h
    have ih : dropTrailing p (d :: rest) = d :: rest := dropTrailing_fix h
    rw [dropTrailing, ih]
    simp [List.isEmpty_iff]

theorem dropWhile_fix_of_all {p : Char → Bool} {l : List Char}
    (h : l.all (fun c => !p c) = true) : l.dropWhile p = l := by
  match l with
  | [] => rfl
  | c :: rest =>
    rw [List.all_cons, Bool.and_eq_true] at h
    exact List.dropWhile_cons_of_neg (by simpa using h.1)

/-! ## noDD preservation -/

theorem noDD_cons {c : Char} {l : List Char} :
    noDD (c :: l) = ((!(isDashChar c && headSat isDashChar l)) && noDD l) := rfl

theorem noDD_dropWhile (p : Char → Bool) :
    ∀ {l : List Char}, noDD l = true → noDD (l.dropWhile p) = true
  | [], _ => rfl
  | c :: rest, h => by
    rw [noDD_cons, Bool.and_eq_true] at h
    by_cases hc : p c = true
    · rw [List.dropWhile_cons_of_pos hc]
      exact noDD_dropWhile p h.2
    · rw [List.dropWhile_cons_of_neg hc, noDD_cons, Bool.and_eq_true]
      exact ⟨h.1, h.2⟩

theorem noDD_dropTrailing (p : Char → Bool) :
    ∀ {l : List Char}, noDD l = true → noDD (dropTrailing p l) = true
  | [], _ => rfl
  | c :: rest, h => by
    rw [noDD_cons, Bool.and_eq_true] at h
    by_cases hb : ((dropTrailing p rest).isEmpty && p c) = true
    · have h1 : dropTrailing p (c :: rest) = [] := by simp [dropTrailing, hb]
      rw [h1]
      rfl
    · have h1 : dropTrailing p (c :: rest) = c :: dropTrailing p rest := by
        simp [dropTrailing, hb]
      rw [h1, noDD_cons, Bool.and_eq_true]
      refine ⟨?_, noDD_dropTrailing p h.2⟩
      rcases headSat_dropTrailing p isDashChar rest with h2 | h2
      · rw [h2]
        simp [headSat]
      · rw [h2]
        exact h.1

/-! ## subWsDash lemmas -/

theorem subWsDashAux_all {l : List Char}
    (h : l.all (fun c => isSpaceChar c || isAllowedChar c) = true) :
    ∀ b, (subWsDashAux b l).all isAllowedChar = true := by
  induction l with
  | nil => intro b; rfl
  | cons c rest ih =>
    rw [List.all_cons, Bool.and_eq_true] at h
    intro b
    by_cases hc : isSpaceChar c = true
    · rw [subWsDashAux]
      rw [if_pos hc]
      by_cases hbv : b = true
      · rw [if_pos hbv]
        exact ih h.2 true
      · rw [if_neg hbv, List.all_cons, Bool.and_eq_true]
        exact ⟨by decide, ih h.2 true⟩
    · rw [subWsDashAux, if_neg hc, List.all_cons, Bool.and_eq_true]
      have hca : isAllowedChar c = true := by
        rcases Bool.or_eq_true _ _ |>.mp h.1 with h' | h'
        · exact absurd h' hc
        · exact h'
      exact ⟨hca, ih h.2 false⟩

theorem mem_subWsDashAux {x : Char} :
    ∀ {l : List Char}, x ∈ l → isSpaceChar x = false → ∀ b, x ∈ subWsDashAux b l
  | [], hx, _ => absurd hx (List.not_mem_nil x)
  | c :: rest, hx, hpx => by
    intro b
    rcases List.mem_cons.mp hx with rfl | hx'
    · rw [subWsDashAux, if_neg (by simp [hpx])]
      exact List.mem_cons_self x _
    · by_cases hc : isSpaceChar c = true
      · rw [subWsDashAux, if_pos hc]
        by_cases hbv : b = true
        · rw [if_pos hbv]
          exact mem_subWsDashAux hx' hpx true
        · rw [if_neg hbv]
          exact List.mem_cons_of_mem _ (mem_subWsDashAux hx' hpx true)
      · rw [subWsDashAux, if_neg hc]
        exact List.mem_cons_of_mem c (mem_subWsDashAux hx' hpx false)

theorem subWsDashAux_fix :
    ∀ {l : List Char}, l.all (fun c => !isSpaceChar c) = true → ∀ b, subWsDashAux b l = l
  | [], _, _ => rfl
  | c :: rest, h, b => by
    rw [List.all_cons, Bool.and_eq_true] at h
    have hc : ¬ isSpaceChar c = true := by simpa using h.1
    rw [subWsDashAux, if_neg hc, subWsDashAux_fix h.2 false]

/-! ## collapseDashes lemmas -/

theorem collapseDashesAux_noDD :
    ∀ l : List Char, (∀ b, noDD (collapseDashesAux b l) = true)
      ∧ headSat isDashChar (collapseDashesAux true l) = false
  | [] => ⟨fun _ => rfl, rfl⟩
  | c :: rest => by
    have ih := collapseDashesAux_noDD rest
    by_cases hc : isDashChar c = true
    · constructor
      · intro b
        by_cases hbv : b = true
        · rw [hbv, collapseDashesAux, if_pos hc, if_pos rfl]
          exact ih.1 true
        · have hb0 : b = false := by
            cases b
            · rfl
            · exact absurd rfl hbv
          rw [hb0, collapseDashesAux, if_pos hc, if_neg (by simp)]
          rw [noDD_cons, Bool.and_eq_true]
          refine ⟨?_, ih.1 true⟩
          rw [ih.2]
          simp
      · rw [collapseDashesAux, if_pos hc, if_pos rfl]
        exact ih.2
    · constructor
      · intro b
        rw [collapseDashesAux, if_neg hc, noDD_cons, Bool.and_eq_true]
        refine ⟨?_, ih.1 false⟩
        simp [Bool.eq_false_iff.mpr hc]
      · rw [collapseDashesAux, if_neg hc]
        simpa [headSat] using Bool.eq_false_iff.mpr hc

theorem mem_collapseDashesAux {x : Char} :
    ∀ {l : List Char}, x ∈ l → isDashChar x = false → ∀ b, x ∈ collapseDashesAux b l
  | [], hx, _ => absurd hx (List.not_mem_nil x)
  | c :: rest, hx, hpx => by
    intro b
    rcases List.mem_cons.mp hx with rfl | hx'
    · rw [collapseDashesAux, if_neg (by simp [hpx])]
      exact List.mem_cons_self x _
    · by_cases hc : isDashChar c = true
      · rw [collapseDashesAux, if_pos hc]
        by_cases hbv : b = true
        · rw [if_pos hbv]
          exact mem_collapseDashesAux hx' hpx true
        · rw [if_neg hbv]
          exact List.mem_cons_of_mem c (mem_collapseDashesAux hx' hpx true)
      · rw [collapseDashesAux, if_neg hc]
        exact List.mem_cons_of_mem c (mem_collapseDashesAux hx' hpx false)

theorem collapseDashesAux_all {q : Char → Bool} :
    ∀ {l : List Char}, l.all q = true → ∀ b, (collapseDashesAux b l).all q = true
  | [], _, _ => rfl
  | c :: rest, h, b => by
    rw [List.all_cons, Bool.and_eq_true] at h
    by_cases hc : isDashChar c = true
    · rw [collapseDashesAux, if_pos hc]
      by_cases hbv : b = true
      · rw [if_pos hbv]
        exact collapseDashesAux_all h.2 true
      · rw [if_neg hbv, List.all_cons, Bool.and_eq_true]
        exact ⟨h.1, collapseDashesAux_all h.2 true⟩
    · rw [collapseDashesAux, if_neg hc, List.all_cons, Bool.and_eq_true]
      exact ⟨h.1, collapseDashesAux_all h.2 false⟩

theorem collapseDashesAux_fix :
    ∀ {l : List Char}, noDD l = true →
      ∀ b, (b = true → headSat isDashChar l = false) → collapseDashesAux b l = l
  | [], _, _, _ => rfl
  | c :: rest, h, b, hb => by
    rw [noDD_cons, Bool.and_eq_true] at h
    by_cases hc : isDashChar c = true
    · have hb0 : b = false := by
        cases b
        · rfl
        · exact absurd (hb rfl) (by simp [headSat, hc])
      have hhead : headSat isDashChar rest = false := by
        have h1 : isDashChar c = false ∨ headSat isDashChar rest = false := by
          simpa using h.1
        rcases h1 with h' | h'
        · exact absurd hc (by simp [h'])
        · exact h'
      rw [hb0, collapseDashesAux, if_pos hc, if_neg (by simp)]
      rw [collapseDashesAux_fix h.2 true (fun _ => hhead)]
    · rw [collapseDashesAux, if_neg hc]
      rw [collapseDashesAux_fix h.2 false (by simp)]

/-! ## Assembly lemmas about the normalizer -/

theorem pyStrip_eq_nil_iff (s : List Char) :
    pyStrip s = [] ↔ s.all isSpaceChar = true := by
  unfold pyStrip
  rw [dropTrailing_eq_nil_iff, all_dropWhile_iff]

theorem normalizeName_eq_some_iff {s t : List Char} :
    normalizeName s = some t ↔
      pyStrip s ≠ [] ∧ tagTransform s ≠ []
        ∧ (tagTransform s).all isAllowedChar = true ∧ t = tagTransform s := by
  unfold normalizeName
  by_cases h1 : pyStrip s = []
  · rw [if_pos (by simp [h1])]
    simp [h1]
  · have hs : s ≠ [] := fun h0 => h1 (by rw [h0]; rfl)
    rw [if_neg (by simp [List.isEmpty_iff, h1, hs])]
    show (if (tagTransform s).isEmpty = true then none
        else if (tagTransform s).all isAllowedChar = true then some (tagTransform s)
        else none) = some t ↔ _
    by_cases h2 : tagTransform s = []
    · rw [if_pos (by simp [h2])]
      simp [h2]
    · rw [if_neg (by simp [List.isEmpty_iff, h2])]
      by_cases h3 : (tagTransform s).all isAllowedChar = true
      · rw [if_pos h3]
        simp [h1, h2, h3, eq_comm]
      · rw [if_neg h3]
        simp [h1, h2, h3]

theorem collapseDashes_noDD (l : List Char) : noDD (collapseDashes l) = true :=
  (collapseDashesAux_noDD l).1 false

theorem stripDashes_shape {x : List Char} (h : noDD x = true) :
    noDD (stripDashes x) = true ∧ headSat isDashChar (stripDashes x) = false
      ∧ lastSat isDashChar (stripDashes x) = false := by
  unfold stripDashes
  refine ⟨noDD_dropTrailing _ (noDD_dropWhile _ h), ?_, lastSat_dropTrailing _ _⟩
  rcases headSat_dropTrailing isDashChar isDashChar (x.dropWhile isDashChar) with h2 | h2
  · rw [h2]
    rfl
  · rw [h2]
    exact headSat_dropWhile _ _

/-- Every name the normalizer accepts is in canonical form. -/
theorem normalizeName_canonical {s t : List Char} (h : normalizeName s = some t) :
    canonicalTagName t = true := by
  rcases normalizeName_eq_some_iff.mp h with ⟨_, hne, hall, rfl⟩
  have hshape :=
    stripDashes_shape (x := collapseDashes (subWsDash ((pyStrip s).map pyLowerChar)))
      (collapseDashes_noDD _)
  have h1 : noDD (tagTransform s) = true := hshape.1
  have h2 : headSat isDashChar (tagTransform s) = false := hshape.2.1
  have h3 : lastSat isDashChar (tagTransform s) = false := hshape.2.2
  simp [canonicalTagName, List.isEmpty_iff, hne, hall, h1, h2, h3]

theorem map_pyLowerChar_fix :
    ∀ {l : List Char}, l.all isAllowedChar = true → l.map pyLowerChar = l
  | [], _ => rfl
  | c :: rest, h => by
    rw [List.all_cons, Bool.and_eq_true] at h
    rw [List.map_cons, allowed_pyLowerChar h.1, map_pyLowerChar_fix h.2]

theorem pyStrip_fix_of_allowed {t : List Char} (h : t.all isAllowedChar = true) :
    pyStrip t = t := by
  have hns : t.all (fun c => !isSpaceChar c) = true := by
    rw [List.all_eq_true] at h ⊢
    intro c hc
    simpa using allowed_not_space (h c hc)
  unfold pyStrip
  rw [dropWhile_fix_of_all hns, dropTrailing_fix (lastSat_false_of_all hns)]

/-- Unpack the conjuncts of `canonicalTagName`. -/
theorem canonical_components {t : List Char} (h : canonicalTagName t = true) :
    t ≠ [] ∧ t.all isAllowedChar = true ∧ noDD t = true
      ∧ headSat isDashChar t = false ∧ lastSat isDashChar t = false := by
  unfold canonicalTagName at h
  rw [Bool.and_eq_true, Bool.and_eq_true, Bool.and_eq_true, Bool.and_eq_true] at h
  obtain ⟨⟨⟨⟨h1, h2⟩, h3⟩, h4⟩, h5⟩ := h
  refine ⟨?_, h2, h3, ?_, ?_⟩
  · intro h0
    rw [h0] at h1
    simp at h1
  · simpa using h4
  · simpa using h5

/-- A name in canonical form is a fixed point of the transformation
chain. -/
theorem tagTransform_fix {t : List Char} (h : canonicalTagName t = true) :
    tagTransform t = t := by
  obtain ⟨h1, h2, h3, h4, h5⟩ := canonical_components h
  have hns : t.all (fun c => !isSpaceChar c) = true := by
    rw [List.all_eq_true] at h2 ⊢
    intro c hc
    simpa using allowed_not_space (h2 c hc)
  have e1 : pyStrip t = t := pyStrip_fix_of_allowed h2
  have e2 : t.map pyLowerChar = t := map_pyLowerChar_fix h2
  have e3 : subWsDash t = t := subWsDashAux_fix hns false
  have e4 : collapseDashes t = t := collapseDashesAux_fix h3 false (by simp)
  have e5 : stripDashes t = t := by
    unfold stripDashes
    rw [dropWhile_fix_of_head h4, dropTrailing_fix h5]
  unfold tagTransform
  rw [e1, e2, e3, e4, e5]

/-- A name in canonical form is accepted unchanged by the normalizer. -/
theorem normalizeName_fix {t : List Char} (h : canonicalTagName t = true) :
    normalizeName t = some t := by
  obtain ⟨hne, h2, _, _, _⟩ := canonical_components h
  have htt : tagTransform t = t := tagTransform_fix h
  refine normalizeName_eq_some_iff.mpr ⟨?_, ?_, ?_, htt.symm⟩
  · rw [pyStrip_fix_of_allowed h2]
    exact hne
  · rw [htt]
    exact hne
  · rw [htt]
    exact h2

/-! ## Claim theorems -/

/-- C1 (code bug): constructing the table model `Tag` directly does NOT
normalize the stored name, contradicting the spec invariant that every
in-memory `Tag` holds a normalized name: `Tag(name="Python")` stores
`"Python"` unchanged (the repository's own test asserts this, noting the
validator issue), although `"Python"` is not normalized (it contains a
character outside `[a-z0-9-]`) and normalization would have produced
`"python"`. -/
theorem tag_direct_construction_not_normalized :
    (Tag.construct (("Python").data)).name = ("Python").data
    ∧ ((Tag.construct (("Python").data)).name).all isAllowedChar = false
    ∧ normalizeName (("Python").data) = some (("python").data) := by
  decide

/-- C2: the normalizer fails exactly when the input is empty or
whitespace-only, or when the transformed result is empty or contains a
character outside `[a-z0-9-]`; on every other input it returns the
transformed string. -/
theorem normalize_name_failure_characterization (s : List Char) :
    (normalizeName s = none ↔
      s.all isSpaceChar = true ∨ tagTransform s = []
        ∨ ∃ c ∈ tagTransform s, isAllowedChar c = false)
    ∧ (∀ t, normalizeName s = some t → t = tagTransform s) := by
  constructor
  · constructor
    · intro h
      by_contra hcon
      push_neg at hcon
      obtain ⟨hws, hne, hall⟩ := hcon
      have hall' : (tagTransform s).all isAllowedChar = true := by
        rw [List.all_eq_true]
        intro x hx
        by_contra hxf
        exact hall x hx (by simpa using hxf)
      have hps : pyStrip s ≠ [] := fun h0 => hws ((pyStrip_eq_nil_iff s).mp h0)
      have hsome := normalizeName_eq_some_iff.mpr ⟨hps, hne, hall', rfl⟩
      rw [hsome] at h
      exact Option.noConfusion h
    · intro h
      cases hnm : normalizeName s with
      | none => rfl
      | some t =>
        rcases normalizeName_eq_some_iff.mp hnm with ⟨hps, hne, hall, rfl⟩
        rcases h with h' | h' | h'
        · exact absurd ((pyStrip_eq_nil_iff s).mpr h') hps
        · exact absurd h' hne
        · obtain ⟨c, hc, hcf⟩ := h'
          rw [List.all_eq_true] at hall
          rw [hall c hc] at hcf
          exact Bool.noConfusion hcf
  · intro t ht
    exact (normalizeName_eq_some_iff.mp ht).2.2.2

/-- Witness for C2 at `s = "  "` (whitespace-only, rejected). -/
theorem normalize_name_failure_characterization_witness :
    normalizeName (("  ").data) = none
    ∧ (("  ").data).all isSpaceChar = true :=
  ⟨((normalize_name_failure_characterization (("  ").data)).1).mpr
      (Or.inl (by decide)),
    by decide⟩

/-- C3, counterexample to the claim as stated: the input `"-"` contains
at least one non-whitespace character and is composed only of letters,
digits, dashes, and whitespace — yet `normalize` rejects it (after
stripping dashes the result is empty). -/
theorem normalize_name_dash_only_rejected :
    ((['-'] : List Char).all (fun c => isAlnumChar c || isDashChar c || isSpaceChar c)) = true
    ∧ (∃ c ∈ (['-'] : List Char), isSpaceChar c = false)
    ∧ normalizeName ['-'] = none := by
  decide

/-- C3 (amended): for every input composed only of letters, digits,
dashes, and whitespace that contains at least one letter or digit (not
merely one non-whitespace character), `normalize` succeeds and produces
a nonempty string of characters in `[a-z0-9-]` with no double dash, no
leading dash, and no trailing dash (`canonicalTagName`). -/
theorem normalize_name_succeeds_on_clean {s : List Char}
    (h1 : s.all (fun c => isAlnumChar c || isDashChar c || isSpaceChar c) = true)
    (h2 : ∃ c ∈ s, isAlnumChar c = true) :
    ∃ t, normalizeName s = some t ∧ canonicalTagName t = true := by
  obtain ⟨c0, hc0mem, hc0⟩ := h2
  have hc0ns : isSpaceChar c0 = false := alnum_not_space hc0
  have hm1 : c0 ∈ pyStrip s :=
    mem_dropTrailing_of_neg (mem_dropWhile_of_neg hc0mem hc0ns) hc0ns
  have hall1 : (pyStrip s).all (fun c => isAlnumChar c || isDashChar c || isSpaceChar c)
      = true := all_dropTrailing (all_dropWhile h1)
  have hd0 := alnum_pyLowerChar hc0
  have hm2 : pyLowerChar c0 ∈ (pyStrip s).map pyLowerChar := List.mem_map_of_mem _ hm1
  have hall2 : ((pyStrip s).map pyLowerChar).all
      (fun c => isSpaceChar c || isAllowedChar c) = true := by
    rw [List.all_eq_true]
    intro x hx
    rcases List.mem_map.mp hx with ⟨y, hy, rfl⟩
    rw [List.all_eq_true] at hall1
    exact clean_pyLowerChar (hall1 y hy)
  have hm3 : pyLowerChar c0 ∈ subWsDash ((pyStrip s).map pyLowerChar) :=
    mem_subWsDashAux hm2 hd0.2.2 false
  have hall3 : (subWsDash ((pyStrip s).map pyLowerChar)).all isAllowedChar = true :=
    subWsDashAux_all hall2 false
  have hm4 : pyLowerChar c0 ∈ collapseDashes (subWsDash ((pyStrip s).map pyLowerChar)) :=
    mem_collapseDashesAux hm3 hd0.2.1 false
  have hall4 : (collapseDashes (subWsDash ((pyStrip s).map pyLowerChar))).all
      isAllowedChar = true := collapseDashesAux_all hall3 false
  have hm5 : pyLowerChar c0 ∈ tagTransform s :=
    mem_dropTrailing_of_neg (mem_dropWhile_of_neg hm4 hd0.2.1) hd0.2.1
  have hall5 : (tagTransform s).all isAllowedChar = true :=
    all_dropTrailing (all_dropWhile hall4)
  have hne : tagTransform s ≠ [] := fun h0 => by
    rw [h0] at hm5
    exact List.not_mem_nil _ hm5
  have hps : pyStrip s ≠ [] := fun h0 => by
    rw [h0] at hm1
    exact List.not_mem_nil _ hm1
  have hsome : normalizeName s = some (tagTransform s) :=
    normalizeName_eq_some_iff.mpr ⟨hps, hne, hall5, rfl⟩
  exact ⟨tagTransform s, hsome, normalizeName_canonical hsome⟩

/-- Witness for C3 at `s = "Machine   Learning"`. -/
theorem normalize_name_succeeds_on_clean_witness :
    ((("Machine   Learning").data).all
        (fun c => isAlnumChar c || isDashChar c || isSpaceChar c) = true)
    ∧ (∃ c ∈ ("Machine   Learning").data, isAlnumChar c = true)
    ∧ ∃ t, normalizeName (("Machine   Learning").data) = some t
        ∧ canonicalTagName t = true :=
  ⟨by decide, by decide,
    normalize_name_succeeds_on_clean (by decide) (by decide)⟩

/-- C4: the normalizer is idempotent — whenever it accepts `s` with
result `t`, it accepts `t` with result `t`, so
`normalize(normalize(s)) = normalize(s)` on every accepted input. -/
theorem normalize_name_idempotent {s t : List Char}
    (h : normalizeName s = some t) : normalizeName t = some t :=
  normalizeName_fix (normalizeName_canonical h)

/-- Witness for C4 at `s = "Machine   Learning"`. -/
theorem normalize_name_idempotent_witness :
    normalizeName (("Machine   Learning").data) = some (("machine-learning").data)
    ∧ normalizeName (("machine-learning").data) = some (("machine-learning").data) :=
  ⟨by decide,
    @normalize_name_idempotent (("Machine   Learning").data)
      (("machine-learning").data) (by decide)⟩

/-- C5: with no existing case-insensitive collision, inserting a tag
succeeds, and then inserting any tag whose name is case-insensitively
equal fails with a uniqueness violation; moreover every reachable tag
table is pairwise free of case-insensitive name collisions. -/
theorem tag_uniqueness_enforced (st : TagStore) (n1 n2 : List Char)
    (hfresh : ∀ r ∈ st.rows, ciKey r.name ≠ ciKey n1)
    (hci : ciKey n1 = ciKey n2) :
    (∃ st', insertTag st n1 = Except.ok st'
      ∧ insertTag st' n2 = Except.error DBError.uniquenessViolation)
    ∧ ∀ s, TagStoreReachable s →
        s.rows.Pairwise (fun a b => ciKey a.name ≠ ciKey b.name) := by
  constructor
  · have hg1 : (st.rows.any (fun r => ciKey r.name == ciKey n1)) = false := by
      rw [Bool.eq_false_iff]
      intro hany
      obtain ⟨r, hr, hbeq⟩ := List.any_eq_true.mp hany
      exact hfresh r hr (by simpa using hbeq)
    refine ⟨⟨st.rows ++ [⟨st.rows.length, n1⟩]⟩, ?_, ?_⟩
    · unfold insertTag
      rw [if_neg (by simp [hg1])]
    · unfold insertTag
      rw [if_pos ?_]
      refine List.any_eq_true.mpr ⟨⟨st.rows.length, n1⟩, ?_, ?_⟩
      · exact List.mem_append_right _ (List.mem_cons_self _ _)
      · simpa using hci
  · intro s hs
    induction hs with
    | empty => exact List.Pairwise.nil
    | insert st1 st1' n hst hins ih =>
      unfold insertTag at hins
      by_cases hg : (st1.rows.any (fun r => ciKey r.name == ciKey n)) = true
      · rw [if_pos hg] at hins
        exact absurd hins (by simp)
      · rw [if_neg hg] at hins
        have hst1' : st1' = ⟨st1.rows ++ [⟨st1.rows.length, n⟩]⟩ := by
          injection hins with h'
          exact h'.symm
        rw [hst1']
        rw [List.pairwise_append]
        refine ⟨ih, by simp, ?_⟩
        intro a ha b hb
        rw [List.mem_singleton] at hb
        subst hb
        intro heq
        apply hg
        exact List.any_eq_true.mpr ⟨a, ha, by simp [heq]⟩
    | delete st1 tid hst ih =>
      show ((st1.rows.filter (fun r => r.id != tid)).Pairwise _)
      exact ih.filter _

/-- Witness for C5: empty table, names `"python"` then `"Python"`
(the scenario of test_tag_unique_constraint). -/
theorem tag_uniqueness_enforced_witness :
    (∀ r ∈ (⟨[]⟩ : TagStore).rows, ciKey r.name ≠ ciKey (("python").data))
    ∧ ciKey (("python").data) = ciKey (("Python").data)
    ∧ ((∃ st', insertTag ⟨[]⟩ (("python").data) = Except.ok st'
          ∧ insertTag st' (("Python").data) = Except.error DBError.uniquenessViolation)
        ∧ ∀ s, TagStoreReachable s →
            s.rows.Pairwise (fun a b => ciKey a.name ≠ ciKey b.name)) :=
  ⟨by simp, by decide,
    tag_uniqueness_enforced ⟨[]⟩ (("python").data) (("Python").data)
      (by simp) (by decide)⟩

/-- C6 (code bug): constructing the table model `Unit` with a
101-character name succeeds and stores the name unchanged — no
`ConstraintViolation` surfaces at construction time, because SQLModel
table models skip validation; only the `UnitCreate` shape rejects the
over-long name. -/
theorem unit_long_name_construction_succeeds :
    (UnitModel.construct (List.replicate 101 'a') 0).name.length = 101
    ∧ (UnitModel.construct (List.replicate 101 'a') 0).name = List.replicate 101 'a'
    ∧ UnitCreate.construct (List.replicate 101 'a') 0 = none := by
  refine ⟨by simp [UnitModel.construct], rfl, by simp [UnitCreate.construct]⟩

/-- C7: a Crumb constructed without an explicit visibility value has
visibility `draft`. -/
theorem crumb_default_visibility (body : List Char) (createdAt : Nat)
    (unitId : Option Nat) :
    (Crumb.construct body createdAt none unitId).visibility = Visibility.draft := rfl

/-- C8 (code bug): the claimed storage cascade does not exist —
`ondelete="CASCADE"` is misdeclared through `sa_column_kwargs` (it is a
`ForeignKey` argument, not a `Column` one), so deleting a tag or a
crumb removes only the parent row and leaves every association row
referencing it in place, orphaned, where the claim says exactly those
rows are removed: on the one-link store, both deletes keep the link
`(1, 1)`, and in general both deletes leave the join table unchanged. -/
theorem delete_leaves_association_rows_orphaned :
    ((deleteTagNoCascade exampleJoinStore 1).tags = []
      ∧ (deleteTagNoCascade exampleJoinStore 1).links = [(1, 1)]
      ∧ (deleteTagNoCascade exampleJoinStore 1).crumbs = exampleJoinStore.crumbs
      ∧ (deleteCrumbNoCascade exampleJoinStore 1).crumbs = []
      ∧ (deleteCrumbNoCascade exampleJoinStore 1).links = [(1, 1)]
      ∧ (deleteCrumbNoCascade exampleJoinStore 1).tags = exampleJoinStore.tags)
    ∧ (∀ s : JoinStore, ∀ tid : Nat, (deleteTagNoCascade s tid).links = s.links)
    ∧ (∀ s : JoinStore, ∀ cid : Nat, (deleteCrumbNoCascade s cid).links = s.links) :=
  ⟨by decide, fun _ _ => rfl, fun _ _ => rfl⟩

/-- C9: `display_name` replaces each dash with a space and title-cases
each word, and on the example inverts normalization:
`normalize("Machine   Learning") = "machine-learning"` and
`display_name("machine-learning") = "Machine Learning"`. -/
theorem display_name_inverts_normalization :
    (∀ n : List Char, displayName n = pyTitle (n.map dashToSpace))
    ∧ normalizeName (("Machine   Learning").data) = some (("machine-learning").data)
    ∧ displayName (("machine-learning").data) = ("Machine Learning").data :=
  ⟨fun _ => rfl, by decide, by decide⟩

theorem normalizeNameSrc_eq_some_iff {s t : List Char} :
    normalizeNameSrc s = some t ↔
      tagTransform s ≠ [] ∧ (tagTransform s).all isAllowedChar = true
        ∧ t = tagTransform s := by
  unfold normalizeNameSrc
  show (if (!(tagTransform s).isEmpty && (tagTransform s).all isAllowedChar) = true
      then some (tagTransform s) else none) = some t ↔ _
  by_cases h2 : tagTransform s = []
  · rw [if_neg (by simp [h2])]
    simp [h2]
  · by_cases h3 : (tagTransform s).all isAllowedChar = true
    · rw [if_pos (by simp [List.isEmpty_iff, h2, h3])]
      simp [h2, h3, eq_comm]
    · rw [if_neg (by simp [h3])]
      simp [h2, h3]

/-- C10: the two `normalize_name` variants (src/models.py and
src/app/models.py) are extensionally equal: on every input string they
either both reject or both accept with the same output. -/
theorem normalize_name_variants_agree (s : List Char) :
    normalizeName s = normalizeNameSrc s := by
  cases hl : normalizeName s with
  | some t =>
    rcases normalizeName_eq_some_iff.mp hl with ⟨hps, hne, hall, ht⟩
    exact (normalizeNameSrc_eq_some_iff.mpr ⟨hne, hall, ht⟩).symm
  | none =>
    cases hr : normalizeNameSrc s with
    | none => rfl
    | some t =>
      rcases normalizeNameSrc_eq_some_iff.mp hr with ⟨hne, hall, ht⟩
      have hps : pyStrip s ≠ [] := by
        intro h0
        apply hne
        unfold tagTransform
        rw [h0]
        rfl
      have hsome := normalizeName_eq_some_iff.mpr ⟨hps, hne, hall, ht⟩
      rw [hl] at hsome
      exact Option.noConfusion hsome
